import Mathlib

/-!
Verification of the MechWolf procedure builder and timeline compiler
(`mechwolf/core/protocol.py`) against its natural-language specification.

The embedding below translates `Protocol.compile`, `Protocol._add_single`,
`Protocol._inferred_duration`, `Protocol.to_list` and
`Protocol.clear_procedures` into Lean.  Python floats for time offsets are
modelled as rationals, `None` as `Option.none`, and Python exceptions as an
explicit error type.  The record collection `self.procedures` is threaded as
explicit state because the compiler mutates record dictionaries in place
(`procedure["stop"] = ...` aliases entries of `self.procedures`).

The physical-quantity parser (pint) is an external collaborator per the
specification, so quantity values arrive pre-parsed as a magnitude together
with a dimensionality tag.
-/

/-- Python value reaching the builder: ints, strings, booleans, and parsed
physical quantities (magnitude plus dimensionality tag). -/
inductive Val where
  | vInt (n : Int)
  | vStr (s : String)
  | vBool (b : Bool)
  | vQty (mag : ℚ) (dim : String)
deriving DecidableEq, Repr

/-- Kind of a Python value, for the builder type-matching check. -/
inductive ValKind where
  | kInt
  | kStr
  | kBool
  | kQty
deriving DecidableEq, Repr

/-- Kind of a value, mirroring `type(value)` in the builder checks. -/
def Val.kind : Val → ValKind
  | .vInt _ => .kInt
  | .vStr _ => .kStr
  | .vBool _ => .kBool
  | .vQty _ _ => .kQty

/-- Parameter dictionaries (`kwargs`, `params`, `base_state()`), as ordered
association lists mirroring Python dict insertion order. -/
abbrev Params := List (String × Val)

/-- An active component of the apparatus.  `attrs` is the settable attribute
dictionary (`component.__dict__`), `baseState` the result of `base_state()`,
`validateDry`/`validateWet` the result of `validate(dry_run=...)`.
Modelled from the spec: the component classes (`ActiveComponent`, `Valve`,
`TempControl`) live outside the given sources, so a valve carries its
symbolic-to-raw `mapping` (string name to integer port) and capability flags
stand in for the class hierarchy, per the capability contract in the spec. -/
structure Component where
  name : String
  attrs : Params
  baseState : Params
  validateDry : Bool
  validateWet : Bool
  isValve : Bool
  mapping : List (String × Int)
  isTempControl : Bool
deriving DecidableEq, Repr

/-- A procedure record, exactly the dict appended by `Protocol._add_single`:
`start` and `stop` in base-unit seconds (`None` allowed), the target
component and the validated parameter map. -/
structure Proc where
  start : Option ℚ
  stop : Option ℚ
  component : Component
  params : Params
deriving DecidableEq, Repr

/-- A compiled instruction: execution form `dict(time=..., params=...)` or
visualization form `dict(start=..., stop=..., params=...)`. -/
inductive Instr where
  | exec (time : Option ℚ) (params : Params)
  | viz (start stop : Option ℚ) (params : Params)
deriving DecidableEq, Repr

/-- Python exceptions raised by the compiler paths, tagged by raise site. -/
inductive PyErr where
  | typeError
  | dupComponentNames
  | invalidDevice
  | conflictingWholeDuration
  | ambiguousStart
  | unresolvableDuration
  | clearAfterExecution
deriving DecidableEq, Repr

/-- Result of a stateful compiler step: outcome together with the procedure
collection, which is preserved through failures because mutation happens in
place in the source. -/
inductive Res (α : Type) where
  | ok (a : α) (s : List Proc)
  | err (e : PyErr) (s : List Proc)
deriving DecidableEq, Repr

/-- The procedure collection after a step, successful or not. -/
def Res.state : Res α → List Proc
  | .ok _ s => s
  | .err _ s => s

/-- The `start` field of record `i` of the collection (`none` out of range). -/
def startAt (procs : List Proc) (i : Nat) : Option ℚ :=
  match procs.get? i with
  | some p => p.start
  | none => none

/-- The `stop` field of record `i` of the collection (`none` out of range). -/
def stopAt (procs : List Proc) (i : Nat) : Option ℚ :=
  match procs.get? i with
  | some p => p.stop
  | none => none

/-- The component of record `i` of the collection. -/
def componentAt (procs : List Proc) (i : Nat) : Option Component :=
  (procs.get? i).map Proc.component

/-- The params of record `i` of the collection (`[]` out of range). -/
def paramsAt (procs : List Proc) (i : Nat) : Params :=
  match procs.get? i with
  | some p => p.params
  | none => []

/-- Replace the record at position `i` by `f` applied to it. -/
def modifyAt : List Proc → Nat → (Proc → Proc) → List Proc
  | [], _, _ => []
  | p :: ps, 0, f => f p :: ps
  | p :: ps, n + 1, f => p :: modifyAt ps n f

/-- Overwrite the `stop` field, modelling `procedure["stop"] = v`. -/
def setStopVal (v : Option ℚ) (p : Proc) : Proc :=
  { p with stop := v }

/-- Indices of the records belonging to component `c`, in insertion order:
the list comprehension `[x for x in self.procedures if x["component"] == component]`
viewed through positions in `self.procedures`. -/
def idxsOf (c : Component) (procs : List Proc) : List Nat :=
  (List.range procs.length).filter (fun i => componentAt procs i = some c)

/-- Insert an index into a list of indices sorted by key, keeping it before
all strictly larger keys and after all smaller-or-equal keys; with
left-to-right insertion this reproduces the stability of Python `sorted`. -/
def insertIdx (key : Nat → ℚ) (x : Nat) : List Nat → List Nat
  | [] => [x]
  | y :: ys => if key y < key x then y :: insertIdx key x ys else x :: y :: ys

/-- Stable insertion sort by key, modelling `sorted(..., key=...)` on values
whose keys never raise on comparison. -/
def insSort (key : Nat → ℚ) : List Nat → List Nat
  | [] => []
  | x :: xs => insertIdx key x (insSort key xs)

/-- Stable insertion sort over arbitrary values by rational key, used for
`sorted([x["stop"] for x in self.procedures], key=lambda z: z if z is not None else 0)`. -/
def insSortVal (key : α → ℚ) : List α → List α
  | [] => []
  | x :: xs => insertVal key x (insSortVal key xs)
where
  insertVal (key : α → ℚ) (x : α) : List α → List α
    | [] => [x]
    | y :: ys => if key y < key x then y :: insertVal key x ys else x :: y :: ys

/-- `sorted(component_procedures, key=lambda x: x["start"])`.  CPython sorts
by comparing keys with `<`; whenever the filtered list has two or more
records and any key is `None`, some comparison involves `None` and raises
`TypeError`.  Otherwise all keys are numbers and the stable sort succeeds. -/
def sortIdxs (c : Component) (procs : List Proc) : Except PyErr (List Nat) :=
  let idxs := idxsOf c procs
  if 2 ≤ idxs.length ∧ idxs.any (fun i => startAt procs i = none) then
    .error .typeError
  else
    .ok (insSort (fun i => (startAt procs i).getD 0) idxs)

/-- `Protocol._inferred_duration`: sort every record stop with key
`z if z is not None else 0`, raise if all stops are `None`, otherwise return
the last element of the sorted list (which can itself be `None`). -/
def inferred_duration (procs : List Proc) : Except PyErr (Option ℚ) :=
  let durations := insSortVal (fun z => z.getD 0) (procs.map Proc.stop)
  if procs.all (fun p => p.stop = none) then
    .error .unresolvableDuration
  else
    .ok (durations.getLast?.getD none)

/-- `math.isclose` with default tolerances `rel_tol=1e-9`, `abs_tol=0.0`:
`abs(a-b) <= max(1e-9 * max(abs(a), abs(b)), 0)`.  Written as the equivalent
integer inequality obtained by multiplying through by the positive
denominators of `a` and `b`:
`10^9 * |a.num * b.den - b.num * a.den| <= max (|a.num| * b.den) (|b.num| * a.den)`,
so that it evaluates by kernel reduction. -/
def isclose (a b : ℚ) : Bool :=
  let lhs : Nat := 1000000000 * (a.num * (b.den : Int) - b.num * (a.den : Int)).natAbs
  let ra : Nat := a.num.natAbs * b.den
  let rb : Nat := b.num.natAbs * a.den
  lhs ≤ (if ra ≤ rb then rb else ra)

/-- The boundary-inference loop of `Protocol.compile` over one component,
given its records as sorted positions into the collection: a successor
starting at exactly `0` raises; a missing `stop` is overwritten in place with
the successor start; the last record with missing `stop` is overwritten with
the inferred protocol duration.  Mutations hit the shared collection. -/
def inferLoop (procs : List Proc) : List Nat → Res Unit
  | [] => .ok () procs
  | [i] =>
      if stopAt procs i = none then
        match inferred_duration procs with
        | .error e => .err e procs
        | .ok d => .ok () (modifyAt procs i (setStopVal d))
      else
        .ok () procs
  | i :: j :: rest =>
      if startAt procs j = some 0 then
        .err .ambiguousStart procs
      else if startAt procs j ≠ none ∧ stopAt procs i = none then
        inferLoop (modifyAt procs i (setStopVal (startAt procs j))) (j :: rest)
      else
        inferLoop procs (j :: rest)

/-- Number of records of the sorted slice with both boundaries unset, for the
conflicting-whole-duration check. -/
def countWhole (procs : List Proc) (idxs : List Nat) : Nat :=
  (idxs.filter (fun i => startAt procs i = none ∧ stopAt procs i = none)).length

/-- The emission loop of `Protocol.compile` for one component.  In
visualization mode each record yields a `(start, stop, params)` entry.  In
execution mode each record yields `(time=start, params)`, followed by a
synthesized base-state entry at `stop` unless the next record starts
`isclose` to this stop; `isclose` on a `None` operand raises `TypeError`. -/
def emitLoop (c : Component) (vizMode : Bool) (procs : List Proc) : List Nat → Except PyErr (List Instr)
  | [] => .ok []
  | [i] =>
      if vizMode then
        .ok [.viz (startAt procs i) (stopAt procs i) (paramsAt procs i)]
      else
        .ok [.exec (startAt procs i) (paramsAt procs i),
             .exec (stopAt procs i) c.baseState]
  | i :: j :: rest =>
      match emitLoop c vizMode procs (j :: rest) with
      | .error e => .error e
      | .ok tail =>
          if vizMode then
            .ok (.viz (startAt procs i) (stopAt procs i) (paramsAt procs i) :: tail)
          else
            match startAt procs j, stopAt procs i with
            | some a, some b =>
                if isclose a b then
                  .ok (.exec (startAt procs i) (paramsAt procs i) :: tail)
                else
                  .ok (.exec (startAt procs i) (paramsAt procs i) ::
                       .exec (some b) c.baseState :: tail)
            | _, _ => .error .typeError

/-- `component.validate(dry_run=dry_run)` as recorded on the component. -/
def validateOf (dryRun : Bool) (c : Component) : Bool :=
  if dryRun then c.validateDry else c.validateWet

/-- One iteration of the component loop of `Protocol.compile`: filter and
sort this component's records, skip it when it has none (advisory only),
validate it, reject conflicting whole-duration records, infer boundaries
(mutating the collection) and emit its timeline. -/
def compileComponent (dryRun vizMode : Bool) (c : Component) (procs : List Proc) :
    Res (Option (List Instr)) :=
  match sortIdxs c procs with
  | .error e => .err e procs
  | .ok idxs =>
      if idxs.isEmpty then
        .ok none procs
      else if ¬ validateOf dryRun c then
        .err .invalidDevice procs
      else if 1 < countWhole procs idxs then
        .err .conflictingWholeDuration procs
      else
        match inferLoop procs idxs with
        | .err e s => .err e s
        | .ok () procs2 =>
            match emitLoop c vizMode procs2 idxs with
            | .error e => .err e procs2
            | .ok instrs => .ok (some instrs) procs2

/-- The component loop of `Protocol.compile`, accumulating the output dict as
an association list in iteration order. -/
def compileGo (dryRun vizMode : Bool) : List Component → List Proc → Res (List (Component × List Instr))
  | [], procs => .ok [] procs
  | c :: cs, procs =>
      match compileComponent dryRun vizMode c procs with
      | .err e s => .err e s
      | .ok none s => compileGo dryRun vizMode cs s
      | .ok (some instrs) s =>
          match compileGo dryRun vizMode cs s with
          | .err e s2 => .err e s2
          | .ok out s2 => .ok ((c, instrs) :: out) s2

/-- `Protocol.compile`: reject duplicate component names, then process each
active component in order. -/
def compile (dryRun vizMode : Bool) (comps : List Component) (procs : List Proc) :
    Res (List (Component × List Instr)) :=
  if (comps.map Component.name).Nodup then
    compileGo dryRun vizMode comps procs
  else
    .err .dupComponentNames procs

/-- Flat export record of `Protocol.to_list`: the procedure dict with the
component replaced by its name. -/
structure FlatProc where
  start : Option ℚ
  stop : Option ℚ
  component : String
  params : Params
deriving DecidableEq, Repr

/-- `Protocol.to_list`: deep-copy the procedures in insertion order,
replacing each component reference by its name. -/
def to_list (procs : List Proc) : List FlatProc :=
  procs.map (fun p => ⟨p.start, p.stop, p.component.name, p.params⟩)

/-- `Protocol.clear_procedures`, over the state triple
(procedures, is_executing, was_executed). -/
def clear_procedures (procs : List Proc) (isExecuting wasExecuted : Bool) : Res Unit :=
  if ¬ wasExecuted ∨ isExecuting then
    .ok () []
  else
    .err .clearAfterExecution procs

/-- Python truthiness of a value, for `not kwargs.get("active")` and
`kwargs["active"]` used as conditions. -/
def Val.truthy : Val → Bool
  | .vBool b => b
  | .vInt n => n ≠ 0
  | .vStr s => s ≠ ""
  | .vQty m _ => m ≠ 0

/-- Dict assignment `d[k] = v`: replace the first binding of `k`, or append
a new binding at the end, preserving insertion order. -/
def setKey : Params → String → Val → Params
  | [], k, v => [(k, v)]
  | (k0, v0) :: rest, k, v =>
      if k0 = k then (k, v) :: rest else (k0, v0) :: setKey rest k v

/-- Builder errors, tagged by raise site in `Protocol._add_single`. -/
inductive AddErr where
  | notInApparatus
  | emptyKwargs
  | invalidAttr
  | badDimensionality
  | badTypeMatching
  | parserFailure
  | stopAndDuration
  | startAfterStop
  | missingTemp
  | keyErrorActive
deriving DecidableEq, Repr

/-- The valve-setting resolution step of `Protocol._add_single`: when the
component is a `Valve` and a `setting` kwarg is present, look the value up in
`component.mapping`.  On `KeyError` the integer case is explicitly passed
through, and a non-integer unmapped value also falls off the end of the
`except` block, so in either case the kwargs are left unchanged and nothing
is raised. -/
def valveResolve (c : Component) (kwargs : Params) : Params :=
  if c.isValve then
    match kwargs.lookup "setting" with
    | some (.vStr s) =>
        match c.mapping.lookup s with
        | some n => setKey kwargs "setting" (.vInt n)
        | none => kwargs
    | some _ => kwargs
    | none => kwargs
  else
    kwargs

/-- Result of the external quantity parser on a builder value:
quantity-typed values arrive pre-parsed, anything else fails in the
collaborator (per the external-interface contract of the spec). -/
def parseVal : Val → Option (ℚ × String)
  | .vQty m d => some (m, d)
  | _ => none

/-- Whether `isinstance(attrVal, type(v))` holds for the type-matching check;
in CPython `bool` is a subtype of `int`, so a boolean attribute accepts an
integer probe. -/
def kindMatches (attrKind valKind : ValKind) : Bool :=
  attrKind = valKind ∨ (attrKind = .kBool ∧ valKind = .kInt)

/-- One iteration of the kwarg validation loop of `Protocol._add_single`:
unknown attributes are rejected; quantity-valued attributes check the parsed
dimensionality of the supplied value; any other attribute requires a
matching concrete type. -/
def attrCheck (c : Component) (k : String) (v : Val) : Except AddErr Unit :=
  match c.attrs.lookup k with
  | none => .error .invalidAttr
  | some attrVal =>
      match attrVal with
      | .vQty _ d =>
          match parseVal v with
          | some (_, d2) => if d2 = d then .ok () else .error .badDimensionality
          | none => .error .parserFailure
      | _ =>
          if kindMatches attrVal.kind v.kind then .ok () else .error .badTypeMatching

/-- The kwarg validation loop over all supplied pairs, in order. -/
def attrChecks (c : Component) : Params → Except AddErr Unit
  | [] => .ok ()
  | (k, v) :: rest =>
      match attrCheck c k v with
      | .error e => .error e
      | .ok () => attrChecks c rest

/-- The temperature-controller normalization of `Protocol._add_single`
(its `TempControl` branch): supplying `temp` without `active` implies
`active=True`; a falsy-or-absent `active` without `temp` defaults `temp` to
the string `"0 degC"`; a truthy `active` without `temp` raises. -/
def tempMagic (kwargs : Params) : Except AddErr Params :=
  let temp := kwargs.lookup "temp"
  let active := kwargs.lookup "active"
  let activeTruthy : Bool := match active with
    | some v => v.truthy
    | none => false
  if temp ≠ none ∧ active = none then
    .ok (setKey kwargs "active" (.vBool true))
  else if activeTruthy = false ∧ temp = none then
    .ok (setKey kwargs "temp" (.vStr "0 degC"))
  else
    match active with
    | none => .error .keyErrorActive
    | some av =>
        if av.truthy ∧ temp = none then .error .missingTemp else .ok kwargs

/-- `Protocol._add_single` with the time arguments already normalized to
base-unit seconds by the external quantity parser: apparatus membership,
valve-setting resolution, non-empty kwargs, per-kwarg validation, the
stop/duration exclusivity and ordering checks, thermal normalization, and
finally the procedure record that the source appends to `self.procedures`. -/
def add_single (apparatus : List Component) (c : Component) (start : ℚ)
    (stop duration : Option ℚ) (kwargs : Params) : Except AddErr Proc :=
  if c ∉ apparatus then
    .error .notInApparatus
  else
    let kwargs1 := valveResolve c kwargs
    if kwargs1 = [] then
      .error .emptyKwargs
    else
      match attrChecks c kwargs1 with
      | .error e => .error e
      | .ok () =>
          if stop ≠ none ∧ duration ≠ none then
            .error .stopAndDuration
          else
            let stop2 := match duration with
              | some d => some (start + d)
              | none => stop
            if (match stop2 with | some t => decide (start > t) | none => false) = true then
              .error .startAfterStop
            else
              match (if c.isTempControl then tempMagic kwargs1 else .ok kwargs1) with
              | .error e => .error e
              | .ok kwargs2 =>
                  .ok { start := some start, stop := stop2, component := c, params := kwargs2 }

/-- The successful payload of a compiler step, if any. -/
def Res.value : Res α → Option α
  | .ok a _ => some a
  | .err _ _ => none

/-- Decidable equality of `Except` results, for evaluating the embedded
functions on concrete inputs. -/
instance [DecidableEq ε] [DecidableEq α] : DecidableEq (Except ε α)
  | .ok a, .ok b =>
      if h : a = b then isTrue (by rw [h])
      else isFalse (by intro hh; cases hh; exact h rfl)
  | .ok _, .error _ => isFalse (by intro h; cases h)
  | .error _, .ok _ => isFalse (by intro h; cases h)
  | .error e, .error f =>
      if h : e = f then isTrue (by rw [h])
      else isFalse (by intro hh; cases hh; exact h rfl)

/-- Time of a compiled instruction (start time in visualization form). -/
def instrTime : Instr → Option ℚ
  | .exec t _ => t
  | .viz s _ _ => s

/-- Boolean strict comparison of instruction times; `none` compares false. -/
def timeLtB (a b : Instr) : Bool :=
  match instrTime a, instrTime b with
  | some x, some y => x < y
  | _, _ => false

/-- Executable check that consecutive instruction times strictly increase. -/
def strictTimesB : List Instr → Bool
  | [] => true
  | [_] => true
  | a :: b :: rest => timeLtB a b && strictTimesB (b :: rest)

/-- A timeline is strictly increasing in time. -/
def strictTimes (l : List Instr) : Prop :=
  strictTimesB l = true

/-- Executable check that a flat export is sorted by start time (missing
starts compare as 0, matching the sort key used elsewhere in the source). -/
def flatTimeSortedB : List FlatProc → Bool
  | [] => true
  | [_] => true
  | p :: q :: rest => (p.start.getD 0 ≤ q.start.getD 0) && flatTimeSortedB (q :: rest)

/-- A flat export is sorted by start time. -/
def flatTimeSorted (l : List FlatProc) : Prop :=
  flatTimeSortedB l = true

instance (l : List Instr) : Decidable (strictTimes l) :=
  inferInstanceAs (Decidable (strictTimesB l = true))

instance (l : List FlatProc) : Decidable (flatTimeSorted l) :=
  inferInstanceAs (Decidable (flatTimeSortedB l = true))

/-- The record collection is unchanged up to stop inference: lengths, starts,
components and params agree everywhere, and a stop may differ only where it
was previously `None`. -/
def framed (s t : List Proc) : Prop :=
  t.length = s.length ∧
    ∀ i, startAt t i = startAt s i ∧ componentAt t i = componentAt s i ∧
      paramsAt t i = paramsAt s i ∧
      (stopAt t i = stopAt s i ∨ stopAt s i = none)

/-- Record validity used by the non-overlap claims: both boundaries given,
non-negative start, and strictly positive length. -/
def recValid (p : Proc) : Prop :=
  p.start ≠ none ∧ p.stop ≠ none ∧
    0 ≤ p.start.getD 0 ∧ p.start.getD 0 < p.stop.getD 0

/-- Pairwise non-overlap of the records of any one component, by position. -/
def nonOverlap (procs : List Proc) : Prop :=
  ∀ i, i < procs.length → ∀ j, j < procs.length → i ≠ j →
    componentAt procs i = componentAt procs j →
    ((stopAt procs i).getD 0 ≤ (startAt procs j).getD 0 ∨
     (stopAt procs j).getD 0 ≤ (startAt procs i).getD 0)

instance (p : Proc) : Decidable (recValid p) := by
  unfold recValid
  infer_instance

instance (procs : List Proc) : Decidable (nonOverlap procs) := by
  unfold nonOverlap
  infer_instance

/-- Fixture: a plain active component named A. -/
def devA : Component :=
  { name := "A", attrs := [], baseState := [("x", Val.vInt 0)],
    validateDry := true, validateWet := true, isValve := false,
    mapping := [], isTempControl := false }

/-- Fixture: a plain active component named B. -/
def devB : Component :=
  { name := "B", attrs := [], baseState := [("y", Val.vInt 0)],
    validateDry := true, validateWet := true, isValve := false,
    mapping := [], isTempControl := false }

/-- Fixture: a plain active component named C. -/
def devC : Component :=
  { name := "C", attrs := [], baseState := [("z", Val.vInt 0)],
    validateDry := true, validateWet := true, isValve := false,
    mapping := [], isTempControl := false }

/-- Fixture: the stop-inference example of the spec, records
(start=0, stop=None, x=1) and (start=10, stop=20, x=2) on device A. -/
def procsInfer : List Proc :=
  [ { start := some 0, stop := none, component := devA, params := [("x", Val.vInt 1)] },
    { start := some 10, stop := some 20, component := devA, params := [("x", Val.vInt 2)] } ]

/-- Fixture: two records of device A with no stop defined anywhere. -/
def procsTwoOpen : List Proc :=
  [ { start := some 0, stop := none, component := devA, params := [("x", Val.vInt 1)] },
    { start := some 10, stop := none, component := devA, params := [("x", Val.vInt 2)] } ]

/-- Fixture: two whole-duration records (both boundaries unset) on device A. -/
def procsTwoWhole : List Proc :=
  [ { start := none, stop := none, component := devA, params := [("x", Val.vInt 1)] },
    { start := none, stop := none, component := devA, params := [("x", Val.vInt 2)] } ]

/-- Fixture: four records across devices C, B, B, A whose compilation leaves
the last stop `None` on the first pass and resolves it on the second. -/
def procsQuad : List Proc :=
  [ { start := some 0, stop := some 0, component := devC, params := [("z", Val.vInt 9)] },
    { start := some 0, stop := none, component := devB, params := [("y", Val.vInt 1)] },
    { start := some 5, stop := none, component := devB, params := [("y", Val.vInt 2)] },
    { start := some 7, stop := none, component := devA, params := [("x", Val.vInt 3)] } ]

/-- Fixture: a single zero-length record (start = stop = 5) on device A. -/
def procsPoint : List Proc :=
  [ { start := some 5, stop := some 5, component := devA, params := [("x", Val.vInt 1)] } ]

/-- Fixture: two records added out of time order on device A. -/
def procsUnsorted : List Proc :=
  [ { start := some 10, stop := some 20, component := devA, params := [("x", Val.vInt 2)] },
    { start := some 0, stop := some 5, component := devA, params := [("x", Val.vInt 1)] } ]

/-- Fixture: a single open-ended record (stop never defined) on device A. -/
def procsOneOpen : List Proc :=
  [ { start := some 0, stop := none, component := devA, params := [("x", Val.vInt 1)] } ]

/-- Fixture: a two-position valve whose raw setting attribute is the integer
port 1 and whose symbolic mapping knows only the name A. -/
def valveV : Component :=
  { name := "V", attrs := [("setting", Val.vInt 1)],
    baseState := [("setting", Val.vInt 1)],
    validateDry := true, validateWet := true, isValve := true,
    mapping := [("A", 2)], isTempControl := false }

/-- C1 counterexample: compiling the two-record example overwrites the first
record's missing stop with the inferred value 10 inside the shared
collection, so the records are mutated in place by the compiler. -/
theorem C1_counterexample :
    stopAt procsInfer 0 = none ∧
      stopAt (compile true false [devA] procsInfer).state 0 = some 10 := by
  decide

/-- C3 counterexample: on records (0, None, x=1) and (10, 20, x=2) the
compiled timeline is not the four-instruction sequence claimed, because the
inferred stop 10 coincides with the successor start and no rest is emitted. -/
theorem C3_counterexample :
    (compile true false [devA] procsInfer).value ≠
      some [(devA,
        [Instr.exec (some 0) [("x", Val.vInt 1)],
         Instr.exec (some 10) devA.baseState,
         Instr.exec (some 10) [("x", Val.vInt 2)],
         Instr.exec (some 20) devA.baseState])] := by
  decide

/-- C3 amended: the first record's stop is inferred as 10, and since the
successor starts exactly there no rest instruction separates them; the
timeline is (0, x=1), (10, x=2), (20, rest). -/
theorem C3_theorem :
    (compile true false [devA] procsInfer).value =
      some [(devA,
        [Instr.exec (some 0) [("x", Val.vInt 1)],
         Instr.exec (some 10) [("x", Val.vInt 2)],
         Instr.exec (some 20) devA.baseState])] := by
  decide

/-- C4 counterexample: no record anywhere defines a stop and the last record
of device A still has no stop when it is reached, yet compile succeeds: the
stop inferred in place from the successor start feeds the duration
inference instead of raising. -/
theorem C4_counterexample :
    procsTwoOpen.all (fun p => p.stop = none) = true ∧
      (compile true false [devA] procsTwoOpen).value =
        some [(devA,
          [Instr.exec (some 0) [("x", Val.vInt 1)],
           Instr.exec (some 10) [("x", Val.vInt 2)],
           Instr.exec (some 10) devA.baseState])] := by
  decide

/-- C5: two whole-duration records for one device make `sorted` compare two
`None` start keys, which raises `TypeError` before the conflicting-duration
check is reached; the dedicated error is unreachable. -/
theorem C5_theorem :
    compile true false [devA] procsTwoWhole = Res.err PyErr.typeError procsTwoWhole := by
  decide

/-- C2 counterexample: both compile passes over the four-record fixture
succeed, but the second pass produces a different timeline for device A,
because its stop stayed `None` after the first pass and is re-inferred from
the by-then mutated stops. -/
theorem C2_counterexample :
    ((compile true false [devA, devB, devC] procsQuad).value.isSome ∧
      (compile true false [devA, devB, devC]
        (compile true false [devA, devB, devC] procsQuad).state).value.isSome) ∧
    (compile true false [devA, devB, devC] procsQuad).value ≠
      (compile true false [devA, devB, devC]
        (compile true false [devA, devB, devC] procsQuad).state).value := by
  decide

/-- C6 counterexample: a single zero-length record (start = stop = 5) is
valid for the builder and trivially non-overlapping, yet its timeline emits
the user instruction and the rest instruction at the same time 5, so the
sequence is not strictly increasing. -/
theorem C6_counterexample :
    nonOverlap procsPoint ∧
      compile true false [devA] procsPoint =
        Res.ok [(devA, [Instr.exec (some 5) [("x", Val.vInt 1)],
                        Instr.exec (some 5) devA.baseState])] procsPoint ∧
      ¬ strictTimes [Instr.exec (some 5) [("x", Val.vInt 1)],
                     Instr.exec (some 5) devA.baseState] := by
  refine ⟨?_, by decide, by decide⟩
  intro i hi j hj hij _
  simp [procsPoint] at hi hj
  omega

/-- C9 counterexample: the flat export preserves insertion order, so records
added out of time order are returned unsorted. -/
theorem C9_counterexample :
    to_list procsUnsorted =
      [⟨some 10, some 20, "A", [("x", Val.vInt 2)]⟩,
       ⟨some 0, some 5, "A", [("x", Val.vInt 1)]⟩] ∧
    ¬ flatTimeSorted (to_list procsUnsorted) := by
  constructor
  · decide
  · decide

/-- C9 amended: the flat export returns one entry per record, in insertion
order, with the component resolved to its name and the numeric second
offsets and params copied through unchanged. -/
theorem C9_theorem : ∀ (procs : List Proc) (i : Nat),
    (to_list procs).length = procs.length ∧
    ((to_list procs).get? i).map FlatProc.component
      = (procs.get? i).map (fun p => p.component.name) ∧
    ((to_list procs).get? i).map FlatProc.start = (procs.get? i).map Proc.start ∧
    ((to_list procs).get? i).map FlatProc.stop = (procs.get? i).map Proc.stop ∧
    ((to_list procs).get? i).map FlatProc.params = (procs.get? i).map Proc.params := by
  intro procs i
  refine ⟨by simp [to_list], ?_, ?_, ?_, ?_⟩ <;>
    simp [to_list, List.get?_map, Option.map_map] <;> rfl

/-- C10: clearing the procedures empties the collection whenever the
protocol was never executed or is currently executing, and raises while
leaving the collection unchanged exactly when it was executed and is not
executing. -/
theorem C10_theorem : ∀ procs : List Proc,
    clear_procedures procs false false = Res.ok () [] ∧
    clear_procedures procs true false = Res.ok () [] ∧
    clear_procedures procs true true = Res.ok () [] ∧
    clear_procedures procs false true = Res.err PyErr.clearAfterExecution procs := by
  intro procs
  exact ⟨rfl, rfl, rfl, rfl⟩

/-- C7: thermal normalization of the builder: a supplied `temp` without
`active` implies `active=True`; a false-or-absent `active` without `temp`
defaults `temp` to the zero point string `0 degC`; a true `active` without
`temp` fails with the missing-temperature error. -/
theorem C7_theorem : ∀ kwargs : Params,
    ((kwargs.lookup "temp").isSome = true → kwargs.lookup "active" = none →
      tempMagic kwargs = .ok (setKey kwargs "active" (Val.vBool true))) ∧
    ((kwargs.lookup "active" = none ∨ kwargs.lookup "active" = some (Val.vBool false)) →
      kwargs.lookup "temp" = none →
      tempMagic kwargs = .ok (setKey kwargs "temp" (Val.vStr "0 degC"))) ∧
    (kwargs.lookup "active" = some (Val.vBool true) → kwargs.lookup "temp" = none →
      tempMagic kwargs = .error AddErr.missingTemp) := by
  intro kwargs
  refine ⟨?_, ?_, ?_⟩
  · intro ht ha
    obtain ⟨v, hv⟩ := Option.isSome_iff_exists.mp ht
    simp [tempMagic, hv, ha]
  · intro hao ht
    rcases hao with ha | ha <;> simp [tempMagic, ha, ht, Val.truthy]
  · intro ha ht
    simp [tempMagic, ha, ht, Val.truthy]

/-- C7 witness: the three thermal normalization rules evaluated on concrete
kwarg dictionaries. -/
theorem C7_witness :
    tempMagic [("temp", Val.vQty 50 "temperature")]
      = .ok (setKey [("temp", Val.vQty 50 "temperature")] "active" (Val.vBool true)) ∧
    tempMagic [("active", Val.vBool false)]
      = .ok (setKey [("active", Val.vBool false)] "temp" (Val.vStr "0 degC")) ∧
    tempMagic [("active", Val.vBool true)] = .error AddErr.missingTemp :=
  ⟨(C7_theorem [("temp", Val.vQty 50 "temperature")]).1 (by decide) (by decide),
   (C7_theorem [("active", Val.vBool false)]).2.1 (Or.inr (by decide)) (by decide),
   (C7_theorem [("active", Val.vBool true)]).2.2 (by decide) (by decide)⟩

/-- C8 counterexample: on the fixture valve, an unmapped symbolic setting is
not rejected by any setting-specific error: the builder fails only later
with the generic type-matching error, and an unmapped raw integer setting
is accepted unchanged with no validity check at all. -/
theorem C8_counterexample :
    add_single [valveV] valveV 0 none none [("setting", Val.vStr "B")]
      = .error AddErr.badTypeMatching ∧
    add_single [valveV] valveV 0 none none [("setting", Val.vInt 99)]
      = .ok { start := some 0, stop := none, component := valveV,
              params := [("setting", Val.vInt 99)] } := by
  constructor
  · decide
  · decide

/-- C8 amended: a symbolic setting found in the valve mapping is replaced by
its raw value; a symbolic setting absent from the mapping is passed through
the valve-resolution step unchanged (no dedicated unknown-setting error
exists) and is then rejected by the generic attribute type check whenever
the raw setting attribute is an integer. -/
theorem C8_theorem : ∀ (c : Component) (kwargs : Params) (s : String),
    c.isValve = true → kwargs.lookup "setting" = some (Val.vStr s) →
    ((∀ n : Int, c.mapping.lookup s = some n →
        valveResolve c kwargs = setKey kwargs "setting" (Val.vInt n)) ∧
     (c.mapping.lookup s = none → valveResolve c kwargs = kwargs) ∧
     (∀ m : Int, c.mapping.lookup s = none →
        c.attrs.lookup "setting" = some (Val.vInt m) →
        attrCheck c "setting" (Val.vStr s) = .error AddErr.badTypeMatching)) := by
  intro c kwargs s hvalve hset
  refine ⟨?_, ?_, ?_⟩
  · intro n hn
    simp [valveResolve, hvalve, hset, hn]
  · intro hn
    simp [valveResolve, hvalve, hset, hn]
  · intro m _ hattr
    simp [attrCheck, hattr, kindMatches, Val.kind]

/-- C8 witness: the amended behavior evaluated on the fixture valve for a
mapped name, an unmapped name, and the ensuing type check. -/
theorem C8_witness :
    valveResolve valveV [("setting", Val.vStr "A")]
      = setKey [("setting", Val.vStr "A")] "setting" (Val.vInt 2) ∧
    valveResolve valveV [("setting", Val.vStr "B")] = [("setting", Val.vStr "B")] ∧
    attrCheck valveV "setting" (Val.vStr "B") = .error AddErr.badTypeMatching :=
  ⟨(C8_theorem valveV [("setting", Val.vStr "A")] "A" (by decide) (by decide)).1 2 (by decide),
   (C8_theorem valveV [("setting", Val.vStr "B")] "B" (by decide) (by decide)).2.1 (by decide),
   (C8_theorem valveV [("setting", Val.vStr "B")] "B" (by decide) (by decide)).2.2 1
     (by decide) (by decide)⟩

theorem length_modifyAt (procs : List Proc) (i : Nat) (f : Proc → Proc) :
    (modifyAt procs i f).length = procs.length := by
  induction procs generalizing i with
  | nil => rfl
  | cons p ps ih =>
      cases i with
      | zero => rfl
      | succ n => simpa [modifyAt] using ih n

theorem get?_modifyAt_self (procs : List Proc) (i : Nat) (f : Proc → Proc) :
    (modifyAt procs i f).get? i = (procs.get? i).map f := by
  induction procs generalizing i with
  | nil => cases i <;> rfl
  | cons p ps ih =>
      cases i with
      | zero => rfl
      | succ n => simpa [modifyAt] using ih n

theorem get?_modifyAt_ne (procs : List Proc) (i j : Nat) (f : Proc → Proc)
    (h : j ≠ i) : (modifyAt procs i f).get? j = procs.get? j := by
  induction procs generalizing i j with
  | nil => cases i <;> rfl
  | cons p ps ih =>
      cases i with
      | zero =>
          cases j with
          | zero => exact absurd rfl h
          | succ m => rfl
      | succ n =>
          cases j with
          | zero => rfl
          | succ m => simpa [modifyAt] using ih n m (by omega)

theorem framed_refl (procs : List Proc) : framed procs procs := by
  exact ⟨rfl, fun i => ⟨rfl, rfl, rfl, Or.inl rfl⟩⟩

theorem framed_trans {s t u : List Proc} (h1 : framed s t) (h2 : framed t u) :
    framed s u := by
  obtain ⟨hl1, h1⟩ := h1
  obtain ⟨hl2, h2⟩ := h2
  refine ⟨hl2.trans hl1, fun i => ?_⟩
  obtain ⟨a1, b1, c1, d1⟩ := h1 i
  obtain ⟨a2, b2, c2, d2⟩ := h2 i
  refine ⟨a2.trans a1, b2.trans b1, c2.trans c1, ?_⟩
  rcases d2 with d2 | d2
  · rcases d1 with d1 | d1
    · exact Or.inl (d2.trans d1)
    · exact Or.inr d1
  · rcases d1 with d1 | d1
    · exact Or.inr (d1 ▸ d2)
    · exact Or.inr d1

theorem framed_setStop (procs : List Proc) (i : Nat) (v : Option ℚ)
    (h : stopAt procs i = none) :
    framed procs (modifyAt procs i (setStopVal v)) := by
  refine ⟨length_modifyAt procs i (setStopVal v), fun j => ?_⟩
  by_cases hj : j = i
  · subst hj
    refine ⟨?_, ?_, ?_, Or.inr h⟩ <;>
      · simp only [startAt, componentAt, paramsAt, get?_modifyAt_self]
        cases procs.get? j <;> simp [setStopVal]
  · have hne := get?_modifyAt_ne procs i j (setStopVal v) hj
    refine ⟨?_, ?_, ?_, Or.inl ?_⟩ <;>
      simp only [startAt, componentAt, paramsAt, stopAt, hne]

theorem inferLoop_framed (idxs : List Nat) : ∀ procs : List Proc,
    framed procs (inferLoop procs idxs).state := by
  induction idxs with
  | nil => intro procs; exact framed_refl procs
  | cons i tail ih =>
      intro procs
      cases tail with
      | nil =>
          by_cases h : stopAt procs i = none
          · simp only [inferLoop, h, if_pos rfl]
            cases hd : inferred_duration procs with
            | error e => exact framed_refl procs
            | ok d =>
                simp only [Res.state]
                exact framed_setStop procs i d h
          · simp only [inferLoop, if_neg h]
            exact framed_refl procs
      | cons j rest =>
          by_cases h0 : startAt procs j = some 0
          · simp only [inferLoop, h0, if_pos rfl]
            exact framed_refl procs
          · by_cases h1 : startAt procs j ≠ none ∧ stopAt procs i = none
            · simp only [inferLoop, if_neg h0, if_pos h1]
              exact framed_trans (framed_setStop procs i (startAt procs j) h1.2)
                (ih (modifyAt procs i (setStopVal (startAt procs j))))
            · simp only [inferLoop, if_neg h0, if_neg h1]
              exact ih procs

theorem compileComponent_framed (dryRun vizMode : Bool) (c : Component)
    (procs : List Proc) :
    framed procs (compileComponent dryRun vizMode c procs).state := by
  unfold compileComponent
  cases hs : sortIdxs c procs with
  | error e => exact framed_refl procs
  | ok idxs =>
      dsimp only
      by_cases hE : idxs.isEmpty = true
      · rw [if_pos hE]
        exact framed_refl procs
      · rw [if_neg hE]
        by_cases hV : ¬ validateOf dryRun c = true
        · rw [if_pos hV]
          exact framed_refl procs
        · rw [if_neg hV]
          by_cases hW : 1 < countWhole procs idxs
          · rw [if_pos hW]
            exact framed_refl procs
          · rw [if_neg hW]
            have hfr := inferLoop_framed idxs procs
            cases hinf : inferLoop procs idxs with
            | err e s =>
                rw [hinf] at hfr
                exact hfr
            | ok u s =>
                rw [hinf] at hfr
                simp only [Res.state] at hfr
                cases u
                dsimp only
                cases he : emitLoop c vizMode s idxs with
                | error e2 => exact hfr
                | ok instrs => exact hfr

theorem compileGo_framed (dryRun vizMode : Bool) (comps : List Component) :
    ∀ procs : List Proc, framed procs (compileGo dryRun vizMode comps procs).state := by
  induction comps with
  | nil => intro procs; exact framed_refl procs
  | cons c cs ih =>
      intro procs
      have hc := compileComponent_framed dryRun vizMode c procs
      cases hcc : compileComponent dryRun vizMode c procs with
      | err e s =>
          rw [hcc] at hc
          simp only [compileGo, hcc]
          exact hc
      | ok r s =>
          rw [hcc] at hc
          simp only [Res.state] at hc
          cases r with
          | none =>
              simp only [compileGo, hcc]
              exact framed_trans hc (ih s)
          | some instrs =>
              simp only [compileGo, hcc]
              have hgo := ih s
              cases hgo2 : compileGo dryRun vizMode cs s with
              | err e2 s2 =>
                  rw [hgo2] at hgo
                  simp only [hgo2]
                  exact framed_trans hc hgo
              | ok out s2 =>
                  rw [hgo2] at hgo
                  simp only [hgo2]
                  exact framed_trans hc hgo

/-- C1 amended: compilation may overwrite, in place, the stop of a record
whose stop was `None` (that is how inference is implemented), but whether it
returns or fails it never changes the length of the collection nor any
record's start, component or params, and any record with a defined stop
keeps it. -/
theorem C1_theorem : ∀ (dryRun vizMode : Bool) (comps : List Component)
    (procs : List Proc), framed procs (compile dryRun vizMode comps procs).state := by
  intro dryRun vizMode comps procs
  unfold compile
  split
  · exact compileGo_framed dryRun vizMode comps procs
  · exact framed_refl procs

theorem mem_idxsOf (c : Component) (procs : List Proc) (i : Nat) :
    i ∈ idxsOf c procs ↔ i < procs.length ∧ componentAt procs i = some c := by
  simp [idxsOf, List.mem_filter, List.mem_range]

theorem stopAt_none_of_all (procs : List Proc)
    (H : ∀ p ∈ procs, p.stop = none) (i : Nat) : stopAt procs i = none := by
  unfold stopAt
  cases h : procs.get? i with
  | none => rfl
  | some p => exact H p (List.get?_mem h)

theorem inferred_duration_all_none (procs : List Proc)
    (H : ∀ p ∈ procs, p.stop = none) :
    inferred_duration procs = .error .unresolvableDuration := by
  unfold inferred_duration
  rw [if_pos]
  simpa [List.all_eq_true] using H

theorem sortIdxs_of_small (c : Component) (procs : List Proc)
    (h : (idxsOf c procs).length ≤ 1) :
    sortIdxs c procs = .ok (idxsOf c procs) := by
  unfold sortIdxs
  rw [if_neg]
  · cases hl : idxsOf c procs with
    | nil => rfl
    | cons i tl =>
        cases tl with
        | nil => rfl
        | cons j tl2 => rw [hl] at h; simp at h
  · intro hcon
    omega

theorem compileComponent_emptyIdxs (dryRun vizMode : Bool) (c : Component)
    (procs : List Proc) (hc : idxsOf c procs = []) :
    compileComponent dryRun vizMode c procs = .ok none procs := by
  unfold compileComponent
  rw [sortIdxs_of_small c procs (by rw [hc]; simp), hc]
  rfl

theorem compileComponent_singleOpen (dryRun vizMode : Bool) (c : Component)
    (procs : List Proc) (i : Nat) (hc : idxsOf c procs = [i])
    (hv : validateOf dryRun c = true)
    (H : ∀ p ∈ procs, p.stop = none) :
    compileComponent dryRun vizMode c procs = .err .unresolvableDuration procs := by
  unfold compileComponent
  rw [sortIdxs_of_small c procs (by rw [hc]; rfl), hc]
  dsimp only
  rw [if_neg (by simp)]
  rw [if_neg (by simp [hv])]
  rw [if_neg (by
    have hle := List.length_filter_le
      (fun i => decide (startAt procs i = none ∧ stopAt procs i = none)) [i]
    simp only [List.length_singleton] at hle
    simp only [countWhole]
    omega)]
  have hstop : stopAt procs i = none := stopAt_none_of_all procs H i
  simp only [inferLoop, hstop, if_pos rfl,
    inferred_duration_all_none procs H]
  rfl

/-- C4 amended: when no record anywhere defines a stop, every component
validates, and no device has two or more records (so that no stop can be
inferred in place from a successor start), compiling a graph with at least
one used device fails with the unresolvable-duration error, leaving the
collection untouched. -/
theorem C4_theorem : ∀ (dryRun vizMode : Bool) (comps : List Component)
    (procs : List Proc),
    (comps.map Component.name).Nodup →
    (∀ c ∈ comps, validateOf dryRun c = true) →
    (∀ p ∈ procs, p.stop = none) →
    (∀ c ∈ comps, (idxsOf c procs).length ≤ 1) →
    (∃ c ∈ comps, idxsOf c procs ≠ []) →
    compile dryRun vizMode comps procs = .err .unresolvableDuration procs := by
  intro dryRun vizMode comps procs hnodup hval hstops hsingle hex
  unfold compile
  rw [if_pos hnodup]
  clear hnodup
  revert hval hsingle hex
  induction comps with
  | nil =>
      intro _ _ hex
      obtain ⟨c, hc, _⟩ := hex
      simp at hc
  | cons c cs ih =>
      intro hval hsingle hex
      by_cases hc0 : idxsOf c procs = []
      · simp only [compileGo, compileComponent_emptyIdxs dryRun vizMode c procs hc0]
        apply ih
        · intro d hd
          exact hval d (List.mem_cons_of_mem c hd)
        · intro d hd
          exact hsingle d (List.mem_cons_of_mem c hd)
        · obtain ⟨d, hd, hdne⟩ := hex
          rcases List.mem_cons.mp hd with rfl | hd2
          · exact absurd hc0 hdne
          · exact ⟨d, hd2, hdne⟩
      · obtain ⟨i, hi⟩ : ∃ i, idxsOf c procs = [i] := by
          have h1 := hsingle c (List.mem_cons_self c cs)
          cases hl : idxsOf c procs with
          | nil => exact absurd hl hc0
          | cons a tl =>
              cases tl with
              | nil => exact ⟨a, rfl⟩
              | cons b tl2 =>
                  rw [hl] at h1
                  simp at h1
        simp only [compileGo,
          compileComponent_singleOpen dryRun vizMode c procs i hi
            (hval c (List.mem_cons_self c cs)) hstops]

/-- C4 witness: a single device with one open-ended record fails with the
unresolvable-duration error. -/
theorem C4_witness :
    (∀ p ∈ procsOneOpen, p.stop = none) ∧
    compile true false [devA] procsOneOpen = .err .unresolvableDuration procsOneOpen :=
  ⟨by decide,
   C4_theorem true false [devA] procsOneOpen (by decide) (by decide) (by decide)
     (by decide) ⟨devA, by decide, by decide⟩⟩

theorem insertIdx_eq_orderedInsert (key : Nat → ℚ) (x : Nat) (l : List Nat) :
    insertIdx key x l = List.orderedInsert (fun a b => key a ≤ key b) x l := by
  induction l with
  | nil => rfl
  | cons y ys ih =>
      by_cases h : key y < key x
      · rw [insertIdx, if_pos h, List.orderedInsert, if_neg (by exact not_le.mpr h), ih]
      · rw [insertIdx, if_neg h, List.orderedInsert, if_pos (not_lt.mp h)]

theorem insSort_eq_insertionSort (key : Nat → ℚ) (l : List Nat) :
    insSort key l = List.insertionSort (fun a b => key a ≤ key b) l := by
  induction l with
  | nil => rfl
  | cons x xs ih => rw [insSort, ih, insertIdx_eq_orderedInsert, List.insertionSort]

theorem insSort_perm (key : Nat → ℚ) (l : List Nat) : List.Perm (insSort key l) l := by
  rw [insSort_eq_insertionSort]
  exact List.perm_insertionSort _ l

theorem insSort_mem (key : Nat → ℚ) (l : List Nat) (x : Nat) :
    x ∈ insSort key l ↔ x ∈ l :=
  (insSort_perm key l).mem_iff

theorem insSort_nodup (key : Nat → ℚ) (l : List Nat) (h : l.Nodup) :
    (insSort key l).Nodup :=
  ((insSort_perm key l).nodup_iff).mpr h

theorem insSort_sorted (key : Nat → ℚ) (l : List Nat) :
    (insSort key l).Pairwise (fun a b => key a ≤ key b) := by
  rw [insSort_eq_insertionSort]
  haveI : IsTotal Nat (fun a b => key a ≤ key b) := ⟨fun a b => le_total (key a) (key b)⟩
  haveI : IsTrans Nat (fun a b => key a ≤ key b) := ⟨fun _ _ _ h1 h2 => le_trans h1 h2⟩
  exact List.sorted_insertionSort _ l

theorem idxsOf_nodup (c : Component) (procs : List Proc) : (idxsOf c procs).Nodup :=
  (List.nodup_range _).filter _

theorem sortIdxs_ok_inv (c : Component) (procs : List Proc) (idxs : List Nat)
    (h : sortIdxs c procs = .ok idxs) :
    idxs = insSort (fun i => (startAt procs i).getD 0) (idxsOf c procs) := by
  simp only [sortIdxs] at h
  split at h
  · cases h
  · cases h
    rfl

theorem mem_of_sortIdxs (c : Component) (procs : List Proc) (idxs : List Nat)
    (h : sortIdxs c procs = .ok idxs) (i : Nat) (hi : i ∈ idxs) :
    i < procs.length ∧ componentAt procs i = some c := by
  rw [sortIdxs_ok_inv c procs idxs h] at hi
  rw [insSort_mem] at hi
  exact (mem_idxsOf c procs i).mp hi

theorem inferLoop_stopsSome (procs : List Proc) : ∀ idxs : List Nat,
    (∀ i ∈ idxs, stopAt procs i ≠ none) →
    inferLoop procs idxs = .ok () procs ∨
      inferLoop procs idxs = .err .ambiguousStart procs := by
  intro idxs
  induction idxs with
  | nil => intro _; exact Or.inl rfl
  | cons i tail ih =>
      intro H
      cases tail with
      | nil =>
          left
          simp only [inferLoop, if_neg (H i (by simp))]
      | cons j rest =>
          by_cases h0 : startAt procs j = some 0
          · right
            simp only [inferLoop]
            rw [if_pos h0]
          · have hcond : ¬ (startAt procs j ≠ none ∧ stopAt procs i = none) := by
              intro hc
              exact H i (by simp) hc.2
            simp only [inferLoop]
            rw [if_neg h0, if_neg hcond]
            exact ih (fun k hk => H k (List.mem_cons_of_mem i hk))

theorem compileComponent_ok_some_inv (dryRun vizMode : Bool) (c : Component)
    (procs s : List Proc) (l : List Instr)
    (h : compileComponent dryRun vizMode c procs = .ok (some l) s) :
    ∃ idxs, sortIdxs c procs = .ok idxs ∧ idxs ≠ [] ∧
      inferLoop procs idxs = .ok () s ∧ emitLoop c vizMode s idxs = .ok l := by
  unfold compileComponent at h
  cases hs : sortIdxs c procs with
  | error e => rw [hs] at h; cases h
  | ok idxs =>
      rw [hs] at h
      dsimp only at h
      by_cases hE : idxs.isEmpty = true
      · rw [if_pos hE] at h
        cases h
      · rw [if_neg hE] at h
        by_cases hV : ¬ validateOf dryRun c = true
        · rw [if_pos hV] at h
          cases h
        · rw [if_neg hV] at h
          by_cases hW : 1 < countWhole procs idxs
          · rw [if_pos hW] at h
            cases h
          · rw [if_neg hW] at h
            cases hinf : inferLoop procs idxs with
            | err e s2 => rw [hinf] at h; cases h
            | ok u s2 =>
                cases u
                rw [hinf] at h
                dsimp only at h
                cases he : emitLoop c vizMode s2 idxs with
                | error e2 => rw [he] at h; cases h
                | ok instrs =>
                    rw [he] at h
                    cases h
                    exact ⟨idxs, rfl, by simpa using hE, hinf, he⟩

theorem framed_eq_of_stopsSome (procs t : List Proc) (hfr : framed procs t)
    (H : ∀ p ∈ procs, p.stop ≠ none) : t = procs := by
  obtain ⟨hlen, hf⟩ := hfr
  apply List.ext_get?
  intro i
  obtain ⟨h1, h2, h3, h4⟩ := hf i
  cases hgi : procs.get? i with
  | none =>
      have ht : t.get? i = none := by
        rw [List.get?_eq_none] at hgi ⊢
        omega
      exact ht
  | some p =>
      have hstop : stopAt procs i ≠ none := by
        simp only [stopAt, hgi]
        exact H p (List.get?_mem hgi)
      have h4m : stopAt t i = stopAt procs i := h4.resolve_right hstop
      have hlt : i < procs.length := by
        by_contra hge
        rw [List.get?_eq_none.mpr (by omega)] at hgi
        cases hgi
      cases hgt : t.get? i with
      | none =>
          rw [List.get?_eq_none] at hgt
          omega
      | some q =>
          simp only [startAt, stopAt, componentAt, paramsAt, hgi, hgt, Option.map] at h1 h2 h3 h4m
          cases p
          cases q
          simp_all

theorem compileComponent_state_stopsSome (dryRun vizMode : Bool) (c : Component)
    (procs : List Proc) (H : ∀ p ∈ procs, p.stop ≠ none) :
    (compileComponent dryRun vizMode c procs).state = procs :=
  framed_eq_of_stopsSome procs _ (compileComponent_framed dryRun vizMode c procs) H

theorem compileGo_mem (dryRun vizMode : Bool) (comps : List Component) :
    ∀ (out : List (Component × List Instr)) (s2 procs : List Proc),
    (∀ c : Component, (compileComponent dryRun vizMode c procs).state = procs) →
    compileGo dryRun vizMode comps procs = .ok out s2 →
    ∀ c l, (c, l) ∈ out → compileComponent dryRun vizMode c procs = .ok (some l) procs := by
  induction comps with
  | nil =>
      intro out s2 procs _ hgo c l hmem
      simp only [compileGo] at hgo
      cases hgo
      simp at hmem
  | cons c0 cs ih =>
      intro out s2 procs hstate hgo c l hmem
      cases hcc : compileComponent dryRun vizMode c0 procs with
      | err e s =>
          simp only [compileGo, hcc] at hgo
          cases hgo
      | ok r s =>
          have hs : s = procs := by
            have := hstate c0
            rw [hcc] at this
            exact this
          subst hs
          cases r with
          | none =>
              simp only [compileGo, hcc] at hgo
              exact ih out s2 s hstate hgo c l hmem
          | some instrs =>
              simp only [compileGo, hcc] at hgo
              cases hgo2 : compileGo dryRun vizMode cs s with
              | err e2 s3 =>
                  rw [hgo2] at hgo
                  cases hgo
              | ok out2 s3 =>
                  rw [hgo2] at hgo
                  cases hgo
                  rcases List.mem_cons.mp hmem with heq | hmem2
                  · obtain ⟨h1, h2⟩ := Prod.mk.injEq c l c0 instrs ▸ heq
                    subst h1
                    subst h2
                    exact hcc
                  · exact ih _ _ s hstate hgo2 c l hmem2

theorem emitLoop_exec_single (c : Component) (procs : List Proc) (i : Nat) :
    emitLoop c false procs [i] =
      .ok [.exec (startAt procs i) (paramsAt procs i),
           .exec (stopAt procs i) c.baseState] := rfl

theorem emitLoop_exec_cons (c : Component) (procs : List Proc) (i j : Nat)
    (rest : List Nat) :
    emitLoop c false procs (i :: j :: rest) =
      match emitLoop c false procs (j :: rest) with
      | .error e => .error e
      | .ok tail =>
          match startAt procs j, stopAt procs i with
          | some a, some b =>
              if isclose a b then
                .ok (.exec (startAt procs i) (paramsAt procs i) :: tail)
              else
                .ok (.exec (startAt procs i) (paramsAt procs i) ::
                     .exec (some b) c.baseState :: tail)
          | _, _ => .error .typeError := by
  simp only [emitLoop]
  rcases emitLoop c false procs (j :: rest) with e | tail
  · rfl
  · rfl

theorem isclose_self (a : ℚ) : isclose a a = true := by
  simp [isclose]

theorem emitLoop_strict (c : Component) (procs : List Proc) :
    ∀ (idxs : List Nat) (l : List Instr),
    emitLoop c false procs idxs = .ok l →
    (∀ i ∈ idxs, ∃ a b, startAt procs i = some a ∧ stopAt procs i = some b ∧ a < b) →
    idxs.Chain' (fun i j => (stopAt procs i).getD 0 ≤ (startAt procs j).getD 0) →
    strictTimesB l = true ∧
      (∀ i0 ∈ idxs.head?, l.head? = some (Instr.exec (startAt procs i0) (paramsAt procs i0))) := by
  intro idxs
  induction idxs with
  | nil =>
      intro l h _ _
      cases h
      exact ⟨rfl, by simp⟩
  | cons i tail ih =>
      intro l h hval hchain
      cases tail with
      | nil =>
          rw [emitLoop_exec_single] at h
          cases h
          obtain ⟨a, b, hsa, hsb, hab⟩ := hval i (by simp)
          refine ⟨?_, ?_⟩
          · simp [strictTimesB, timeLtB, instrTime, hsa, hsb, hab]
          · intro i0 hi0
            simp only [List.head?] at hi0
            cases hi0
            rfl
      | cons j rest =>
          rw [emitLoop_exec_cons] at h
          cases he : emitLoop c false procs (j :: rest) with
          | error e =>
              rw [he] at h
              cases h
          | ok tail2 =>
              rw [he] at h
              obtain ⟨aj, bj, hsj, htj, hj⟩ := hval j (by simp)
              obtain ⟨ai, bi, hsi, hti, hi⟩ := hval i (by simp)
              rw [hsj, hti] at h
              dsimp only at h
              have hvt := fun k hk => hval k (List.mem_cons_of_mem i hk)
              have hct := (List.chain'_cons.mp hchain).2
              have hrel := (List.chain'_cons.mp hchain).1
              rw [hti, hsj] at hrel
              simp only [Option.getD] at hrel
              obtain ⟨hstrict, hhead⟩ := ih tail2 he hvt hct
              have hhd : tail2.head? = some (Instr.exec (startAt procs j) (paramsAt procs j)) :=
                hhead j rfl
              obtain ⟨t2, htl⟩ : ∃ t2, tail2 = Instr.exec (startAt procs j) (paramsAt procs j) :: t2 := by
                cases tail2 with
                | nil => cases hhd
                | cons x t2 =>
                    simp only [List.head?] at hhd
                    cases hhd
                    exact ⟨t2, rfl⟩
              by_cases hcl : isclose aj bi = true
              · rw [if_pos hcl] at h
                cases h
                refine ⟨?_, ?_⟩
                · rw [htl]
                  simp only [strictTimesB]
                  rw [← htl, hstrict]
                  simp only [timeLtB, instrTime, hsi, hsj, Bool.and_true]
                  simp only [decide_eq_true_eq]
                  calc ai < bi := hi
                    _ ≤ aj := hrel
                · intro i0 hi0
                  simp only [List.head?] at hi0
                  cases hi0
                  rfl
              · rw [if_neg hcl] at h
                cases h
                have hbiaj : bi < aj := by
                  rcases lt_or_eq_of_le hrel with hlt | heq
                  · exact hlt
                  · exact absurd (heq ▸ isclose_self aj) (by
                      intro hcc
                      exact hcl (by rw [heq]; exact isclose_self aj))
                refine ⟨?_, ?_⟩
                · rw [htl]
                  simp only [strictTimesB]
                  rw [← htl, hstrict]
                  simp only [timeLtB, instrTime, hsi, hsj, Bool.and_true]
                  simp [hi, hbiaj]
                · intro i0 hi0
                  simp only [List.head?] at hi0
                  cases hi0
                  rfl

theorem chain_stop_start (c : Component) (procs : List Proc)
    (hno : nonOverlap procs) (hval : ∀ p ∈ procs, recValid p) :
    ∀ idxs : List Nat,
    (∀ i ∈ idxs, i < procs.length ∧ componentAt procs i = some c) →
    idxs.Pairwise (fun x y => (startAt procs x).getD 0 ≤ (startAt procs y).getD 0) →
    idxs.Nodup →
    idxs.Chain' (fun x y => (stopAt procs x).getD 0 ≤ (startAt procs y).getD 0) := by
  intro idxs
  induction idxs with
  | nil =>
      intro _ _ _
      simp
  | cons i tail ih =>
      intro hmem hpw hnd
      cases tail with
      | nil => simp
      | cons j rest =>
          rw [List.chain'_cons]
          constructor
          · obtain ⟨hilt, hic⟩ := hmem i (by simp)
            obtain ⟨hjlt, hjc⟩ := hmem j (by simp)
            have hij : i ≠ j := by
              intro he
              have := (List.nodup_cons.mp hnd).1
              rw [he] at this
              exact this (by simp)
            have hss : (startAt procs i).getD 0 ≤ (startAt procs j).getD 0 :=
              (List.pairwise_cons.mp hpw).1 j (by simp)
            rcases hno i hilt j hjlt hij (hic.trans hjc.symm) with h | h
            · exact h
            · exfalso
              cases hgp : procs.get? j with
              | none =>
                  rw [List.get?_eq_none] at hgp
                  omega
              | some pj =>
                  obtain ⟨_, _, _, hlt2⟩ := hval pj (List.get?_mem hgp)
                  have e1 : (startAt procs j).getD 0 = pj.start.getD 0 := by
                    unfold startAt
                    rw [hgp]
                  have e2 : (stopAt procs j).getD 0 = pj.stop.getD 0 := by
                    unfold stopAt
                    rw [hgp]
                  rw [e1] at hss
                  rw [e2] at h
                  linarith
          · exact ih (fun k hk => hmem k (List.mem_cons_of_mem i hk))
              (List.pairwise_cons.mp hpw).2 (List.nodup_cons.mp hnd).2

/-- C6 amended: under a successful compile, if every record has defined
boundaries with non-negative start and strictly positive length, and records
of any one device are pairwise non-overlapping, then every emitted
execution-form timeline is strictly increasing in time and its first
instruction is no later than any of that device's record starts. -/
theorem C6_theorem : ∀ (dryRun : Bool) (comps : List Component) (procs : List Proc)
    (out : List (Component × List Instr)) (s2 : List Proc),
    compile dryRun false comps procs = .ok out s2 →
    (∀ p ∈ procs, recValid p) →
    nonOverlap procs →
    ∀ c l, (c, l) ∈ out →
      strictTimes l ∧
      (∃ i0, i0 < procs.length ∧ componentAt procs i0 = some c ∧
        ∃ hd, l.head? = some hd ∧ instrTime hd = startAt procs i0) ∧
      (∀ i, i < procs.length → componentAt procs i = some c →
        ∀ a, startAt procs i = some a →
          ∃ hd t, l.head? = some hd ∧ instrTime hd = some t ∧ t ≤ a) := by
  intro dryRun comps procs out s2 hcomp hval hno c l hmem
  unfold compile at hcomp
  by_cases hnd : ((comps.map Component.name).Nodup)
  · rw [if_pos hnd] at hcomp
    have hstops : ∀ p ∈ procs, p.stop ≠ none := fun p hp => (hval p hp).2.1
    have hstate : ∀ c' : Component, (compileComponent dryRun false c' procs).state = procs :=
      fun c' => compileComponent_state_stopsSome dryRun false c' procs hstops
    have hcc := compileGo_mem dryRun false comps out s2 procs hstate hcomp c l hmem
    obtain ⟨idxs, hsort, hne, hinf, hemit⟩ :=
      compileComponent_ok_some_inv dryRun false c procs procs l hcc
    have hmemIdx : ∀ i ∈ idxs, i < procs.length ∧ componentAt procs i = some c :=
      fun i hi => mem_of_sortIdxs c procs idxs hsort i hi
    have hvalIdx : ∀ i ∈ idxs,
        ∃ a b, startAt procs i = some a ∧ stopAt procs i = some b ∧ a < b := by
      intro i hi
      obtain ⟨hlt, _⟩ := hmemIdx i hi
      cases hgp : procs.get? i with
      | none =>
          rw [List.get?_eq_none] at hgp
          omega
      | some p =>
          obtain ⟨hs, ht, _, hlt2⟩ := hval p (List.get?_mem hgp)
          obtain ⟨a, ha⟩ := Option.ne_none_iff_exists'.mp hs
          obtain ⟨b, hb⟩ := Option.ne_none_iff_exists'.mp ht
          refine ⟨a, b, by unfold startAt; rw [hgp]; exact ha,
            by unfold stopAt; rw [hgp]; exact hb, ?_⟩
          rw [ha, hb] at hlt2
          simpa using hlt2
    have hpw : idxs.Pairwise (fun x y => (startAt procs x).getD 0 ≤ (startAt procs y).getD 0) := by
      rw [sortIdxs_ok_inv c procs idxs hsort]
      exact insSort_sorted _ _
    have hnodup : idxs.Nodup := by
      rw [sortIdxs_ok_inv c procs idxs hsort]
      exact insSort_nodup _ _ (idxsOf_nodup c procs)
    have hchain := chain_stop_start c procs hno hval idxs hmemIdx hpw hnodup
    obtain ⟨hstrict, hhead⟩ := emitLoop_strict c procs idxs l hemit hvalIdx hchain
    obtain ⟨i0, tl, rfl⟩ : ∃ i0 tl, idxs = i0 :: tl := by
      cases idxs with
      | nil => exact absurd rfl hne
      | cons i0 tl => exact ⟨i0, tl, rfl⟩
    have hhd := hhead i0 rfl
    refine ⟨hstrict, ?_, ?_⟩
    · exact ⟨i0, (hmemIdx i0 (by simp)).1, (hmemIdx i0 (by simp)).2,
        _, hhd, rfl⟩
    intro i hlt hci a ha
    have hiidxs : i ∈ i0 :: tl := by
      have hmm : i ∈ insSort (fun k => (startAt procs k).getD 0) (idxsOf c procs) := by
        rw [insSort_mem]
        exact (mem_idxsOf c procs i).mpr ⟨hlt, hci⟩
      rw [← sortIdxs_ok_inv c procs _ hsort] at hmm
      exact hmm
    have hle : (startAt procs i0).getD 0 ≤ (startAt procs i).getD 0 := by
      rcases List.mem_cons.mp hiidxs with rfl | hitl
      · exact le_refl _
      · exact (List.pairwise_cons.mp hpw).1 i hitl
    obtain ⟨t, b0, hst0, _, _⟩ := hvalIdx i0 (by simp)
    refine ⟨_, t, hhd, by simp [instrTime, hst0], ?_⟩
    rw [hst0, ha] at hle
    simpa using hle
  · rw [if_neg hnd] at hcomp
    cases hcomp

/-- C6 witness: two well-separated records of device A compile to a strictly
increasing timeline starting at the earliest start. -/
theorem C6_witness :
    (∀ p ∈ procsUnsorted, recValid p) ∧
    (compile true false [devA] procsUnsorted).value.isSome = true ∧
    ∀ c l, (c, l) ∈ [(devA,
        [Instr.exec (some 0) [("x", Val.vInt 1)],
         Instr.exec (some 5) devA.baseState,
         Instr.exec (some 10) [("x", Val.vInt 2)],
         Instr.exec (some 20) devA.baseState])] →
      strictTimes l ∧
      (∃ i0, i0 < procsUnsorted.length ∧ componentAt procsUnsorted i0 = some c ∧
        ∃ hd, l.head? = some hd ∧ instrTime hd = startAt procsUnsorted i0) ∧
      (∀ i, i < procsUnsorted.length → componentAt procsUnsorted i = some c →
        ∀ a, startAt procsUnsorted i = some a →
          ∃ hd t, l.head? = some hd ∧ instrTime hd = some t ∧ t ≤ a) := by
  refine ⟨by decide, by decide, ?_⟩
  have h := C6_theorem true [devA] procsUnsorted
    [(devA,
      [Instr.exec (some 0) [("x", Val.vInt 1)],
       Instr.exec (some 5) devA.baseState,
       Instr.exec (some 10) [("x", Val.vInt 2)],
       Instr.exec (some 20) devA.baseState])]
    procsUnsorted (by decide) (by decide) (by decide)
  exact h

theorem framed_skel (s t : List Proc) (h : framed s t) :
    t.length = s.length ∧ ∀ i, startAt t i = startAt s i ∧
      componentAt t i = componentAt s i ∧ paramsAt t i = paramsAt s i := by
  obtain ⟨hl, hf⟩ := h
  exact ⟨hl, fun i => ⟨(hf i).1, (hf i).2.1, (hf i).2.2.1⟩⟩

theorem idxsOf_congr (c : Component) (s t : List Proc)
    (hl : t.length = s.length) (hc : ∀ i, componentAt t i = componentAt s i) :
    idxsOf c t = idxsOf c s := by
  unfold idxsOf
  rw [hl]
  exact List.filter_congr (fun i _ => by rw [hc i])

theorem sortIdxs_congr (c : Component) (s t : List Proc)
    (hl : t.length = s.length) (hc : ∀ i, componentAt t i = componentAt s i)
    (hs : ∀ i, startAt t i = startAt s i) :
    sortIdxs c t = sortIdxs c s := by
  unfold sortIdxs
  rw [idxsOf_congr c s t hl hc]
  have hkey : (fun i => (startAt t i).getD 0) = (fun i => (startAt s i).getD 0) := by
    funext i
    rw [hs i]
  have hany : (fun i => decide (startAt t i = none)) = (fun i => decide (startAt s i = none)) := by
    funext i
    rw [hs i]
  rw [hkey, hany]

theorem startAt_modify_setStop (s : List Proc) (i k : Nat) (v : Option ℚ) :
    startAt (modifyAt s i (setStopVal v)) k = startAt s k := by
  by_cases hk : k = i
  · subst hk
    simp only [startAt, get?_modifyAt_self]
    cases s.get? k <;> simp [setStopVal]
  · simp only [startAt, get?_modifyAt_ne s i k _ hk]

theorem inferLoop_noop : ∀ (idxs : List Nat) (s t s2 : List Proc),
    inferLoop s idxs = .ok () s2 →
    (∀ i ∈ idxs, startAt t i = startAt s i) →
    (∀ i ∈ idxs, stopAt t i ≠ none) →
    inferLoop t idxs = .ok () t := by
  intro idxs
  induction idxs with
  | nil => intro s t s2 _ _ _; rfl
  | cons i tail ih =>
      intro s t s2 h hstartEq hstops
      cases tail with
      | nil =>
          simp only [inferLoop, if_neg (hstops i (by simp))]
      | cons j rest =>
          have h0s : ¬ startAt s j = some 0 := by
            intro h0
            simp only [inferLoop] at h
            rw [if_pos h0] at h
            cases h
          have h0t : ¬ startAt t j = some 0 := by
            rw [hstartEq j (by simp)]
            exact h0s
          have hcondt : ¬ (startAt t j ≠ none ∧ stopAt t i = none) := by
            intro hc
            exact hstops i (by simp) hc.2
          simp only [inferLoop]
          rw [if_neg h0t, if_neg hcondt]
          simp only [inferLoop] at h
          rw [if_neg h0s] at h
          by_cases hconds : startAt s j ≠ none ∧ stopAt s i = none
          · rw [if_pos hconds] at h
            refine ih (modifyAt s i (setStopVal (startAt s j))) t s2 h ?_ ?_
            · intro k hk
              rw [startAt_modify_setStop]
              exact hstartEq k (List.mem_cons_of_mem i hk)
            · intro k hk
              exact hstops k (List.mem_cons_of_mem i hk)
          · rw [if_neg hconds] at h
            refine ih s t s2 h ?_ ?_
            · intro k hk
              exact hstartEq k (List.mem_cons_of_mem i hk)
            · intro k hk
              exact hstops k (List.mem_cons_of_mem i hk)

theorem emitLoop_congr (c : Component) (vizMode : Bool) : ∀ (idxs : List Nat)
    (s t : List Proc), (∀ i ∈ idxs, t.get? i = s.get? i) →
    emitLoop c vizMode t idxs = emitLoop c vizMode s idxs := by
  intro idxs
  induction idxs with
  | nil => intro s t _; rfl
  | cons i tail ih =>
      intro s t hget
      have hsi : startAt t i = startAt s i := by
        simp only [startAt, hget i (by simp)]
      have hti : stopAt t i = stopAt s i := by
        simp only [stopAt, hget i (by simp)]
      have hpi : paramsAt t i = paramsAt s i := by
        simp only [paramsAt, hget i (by simp)]
      cases tail with
      | nil =>
          simp only [emitLoop, hsi, hti, hpi]
      | cons j rest =>
          have hsj : startAt t j = startAt s j := by
            simp only [startAt, hget j (by simp)]
          have hrec := ih s t (fun k hk => hget k (List.mem_cons_of_mem i hk))
          simp only [emitLoop, hrec, hsi, hti, hpi, hsj]

theorem inferLoop_untouched : ∀ (idxs : List Nat) (s : List Proc) (i : Nat),
    i ∉ idxs → ((inferLoop s idxs).state).get? i = s.get? i := by
  intro idxs
  induction idxs with
  | nil => intro s i _; rfl
  | cons k tail ih =>
      intro s i hi
      have hik : i ≠ k := by
        intro he
        exact hi (he ▸ List.mem_cons_self k tail)
      have hitail : i ∉ tail := fun hm => hi (List.mem_cons_of_mem k hm)
      cases tail with
      | nil =>
          by_cases hstop : stopAt s k = none
          · simp only [inferLoop, if_pos hstop]
            cases hd : inferred_duration s with
            | error e => rfl
            | ok d =>
                simp only [Res.state]
                exact get?_modifyAt_ne s k i _ hik
          · simp only [inferLoop, if_neg hstop]
            rfl
      | cons j rest =>
          by_cases h0 : startAt s j = some 0
          · simp only [inferLoop]
            rw [if_pos h0]
            rfl
          · simp only [inferLoop]
            rw [if_neg h0]
            by_cases hcond : startAt s j ≠ none ∧ stopAt s k = none
            · rw [if_pos hcond]
              rw [ih (modifyAt s k (setStopVal (startAt s j))) i hitail]
              exact get?_modifyAt_ne s k i _ hik
            · rw [if_neg hcond]
              exact ih s i hitail

theorem compileComponent_ok_some_full (dryRun vizMode : Bool) (c : Component)
    (procs s : List Proc) (l : List Instr)
    (h : compileComponent dryRun vizMode c procs = .ok (some l) s) :
    ∃ idxs, sortIdxs c procs = .ok idxs ∧ idxs ≠ [] ∧ validateOf dryRun c = true ∧
      inferLoop procs idxs = .ok () s ∧ emitLoop c vizMode s idxs = .ok l := by
  unfold compileComponent at h
  cases hs : sortIdxs c procs with
  | error e => rw [hs] at h; cases h
  | ok idxs =>
      rw [hs] at h
      dsimp only at h
      by_cases hE : idxs.isEmpty = true
      · rw [if_pos hE] at h
        cases h
      · rw [if_neg hE] at h
        by_cases hV : ¬ validateOf dryRun c = true
        · rw [if_pos hV] at h
          cases h
        · rw [if_neg hV] at h
          by_cases hW : 1 < countWhole procs idxs
          · rw [if_pos hW] at h
            cases h
          · rw [if_neg hW] at h
            cases hinf : inferLoop procs idxs with
            | err e s2 => rw [hinf] at h; cases h
            | ok u s2 =>
                cases u
                rw [hinf] at h
                dsimp only at h
                cases he : emitLoop c vizMode s2 idxs with
                | error e2 => rw [he] at h; cases h
                | ok instrs =>
                    rw [he] at h
                    cases h
                    exact ⟨idxs, rfl, by simpa using hE, not_not.mp hV, hinf, he⟩

theorem compileComponent_ok_none_inv (dryRun vizMode : Bool) (c : Component)
    (procs s : List Proc)
    (h : compileComponent dryRun vizMode c procs = .ok none s) :
    s = procs ∧ idxsOf c procs = [] := by
  unfold compileComponent at h
  cases hs : sortIdxs c procs with
  | error e => rw [hs] at h; cases h
  | ok idxs =>
      rw [hs] at h
      dsimp only at h
      by_cases hE : idxs.isEmpty = true
      · rw [if_pos hE] at h
        cases h
        refine ⟨rfl, ?_⟩
        have hIdx := sortIdxs_ok_inv c procs idxs hs
        have : idxs = [] := by simpa [List.isEmpty_iff] using hE
        rw [this] at hIdx
        have hperm := insSort_perm (fun i => (startAt procs i).getD 0) (idxsOf c procs)
        rw [← hIdx] at hperm
        exact hperm.symm.eq_nil
      · rw [if_neg hE] at h
        by_cases hV : ¬ validateOf dryRun c = true
        · rw [if_pos hV] at h
          cases h
        · rw [if_neg hV] at h
          by_cases hW : 1 < countWhole procs idxs
          · rw [if_pos hW] at h
            cases h
          · rw [if_neg hW] at h
            cases hinf : inferLoop procs idxs with
            | err e s2 => rw [hinf] at h; cases h
            | ok u s2 =>
                cases u
                rw [hinf] at h
                dsimp only at h
                cases he : emitLoop c vizMode s2 idxs with
                | error e2 => rw [he] at h; cases h
                | ok instrs => rw [he] at h; cases h

theorem compileComponent_mk (dryRun vizMode : Bool) (c : Component)
    (procs s2 : List Proc) (idxs : List Nat) (l : List Instr)
    (h1 : sortIdxs c procs = .ok idxs) (h2 : idxs ≠ [])
    (h3 : validateOf dryRun c = true) (h4 : ¬ 1 < countWhole procs idxs)
    (h5 : inferLoop procs idxs = .ok () s2)
    (h6 : emitLoop c vizMode s2 idxs = .ok l) :
    compileComponent dryRun vizMode c procs = .ok (some l) s2 := by
  unfold compileComponent
  rw [h1]
  dsimp only
  rw [if_neg (by simpa [List.isEmpty_iff] using h2)]
  rw [if_neg (by simp [h3])]
  rw [if_neg h4]
  rw [h5]
  dsimp only
  rw [h6]

theorem compileComponent_mk_none (dryRun vizMode : Bool) (c : Component)
    (procs : List Proc) (hsort : sortIdxs c procs = .ok []) :
    compileComponent dryRun vizMode c procs = .ok none procs := by
  unfold compileComponent
  rw [hsort]
  rfl

theorem compileComponent_untouched (dryRun vizMode : Bool) (c : Component)
    (s : List Proc) (i : Nat) (hci : componentAt s i ≠ some c) :
    ((compileComponent dryRun vizMode c s).state).get? i = s.get? i := by
  unfold compileComponent
  cases hs : sortIdxs c s with
  | error e => rfl
  | ok idxs =>
      dsimp only
      have hnotin : i ∉ idxs := by
        intro hmem
        exact hci (mem_of_sortIdxs c s idxs hs i hmem).2
      by_cases hE : idxs.isEmpty = true
      · rw [if_pos hE]
        rfl
      · rw [if_neg hE]
        by_cases hV : ¬ validateOf dryRun c = true
        · rw [if_pos hV]
          rfl
        · rw [if_neg hV]
          by_cases hW : 1 < countWhole s idxs
          · rw [if_pos hW]
            rfl
          · rw [if_neg hW]
            have hu := inferLoop_untouched idxs s i hnotin
            cases hinf : inferLoop s idxs with
            | err e s2 =>
                rw [hinf] at hu
                exact hu
            | ok u s2 =>
                cases u
                rw [hinf] at hu
                simp only [Res.state] at hu
                dsimp only
                cases he : emitLoop c vizMode s2 idxs with
                | error e2 => exact hu
                | ok instrs => exact hu

theorem compileGo_untouched (dryRun vizMode : Bool) : ∀ (comps : List Component)
    (s : List Proc) (out : List (Component × List Instr)) (s2 : List Proc),
    compileGo dryRun vizMode comps s = .ok out s2 →
    ∀ i, (∀ d ∈ comps, componentAt s i ≠ some d) → s2.get? i = s.get? i := by
  intro comps
  induction comps with
  | nil =>
      intro s out s2 hgo i _
      simp only [compileGo] at hgo
      cases hgo
      rfl
  | cons d ds ih =>
      intro s out s2 hgo i hcomp
      cases hcc : compileComponent dryRun vizMode d s with
      | err e sx =>
          simp only [compileGo, hcc] at hgo
          cases hgo
      | ok r sx =>
          have huntouched : sx.get? i = s.get? i := by
            have hcu := compileComponent_untouched dryRun vizMode d s i (hcomp d (by simp))
            rw [hcc] at hcu
            exact hcu
          have hcompAt : componentAt sx i = componentAt s i := by
            have hfr := compileComponent_framed dryRun vizMode d s
            rw [hcc] at hfr
            exact (hfr.2 i).2.1
          have hcomp2 : ∀ d2 ∈ ds, componentAt sx i ≠ some d2 := by
            intro d2 hd2
            rw [hcompAt]
            exact hcomp d2 (List.mem_cons_of_mem d hd2)
          cases r with
          | none =>
              simp only [compileGo, hcc] at hgo
              rw [ih sx out s2 hgo i hcomp2, huntouched]
          | some instrs =>
              simp only [compileGo, hcc] at hgo
              cases hgo2 : compileGo dryRun vizMode ds sx with
              | err e2 s3 =>
                  rw [hgo2] at hgo
                  cases hgo
              | ok out2 s3 =>
                  rw [hgo2] at hgo
                  cases hgo
                  rw [ih sx _ _ hgo2 i hcomp2, huntouched]

theorem countWhole_zero (t : List Proc) (idxs : List Nat)
    (H : ∀ i ∈ idxs, stopAt t i ≠ none) : countWhole t idxs = 0 := by
  unfold countWhole
  rw [List.length_eq_zero]
  rw [List.filter_eq_nil]
  intro i hi
  simp only [decide_eq_true_eq, not_and]
  intro _
  exact H i hi

theorem compileGo_idem (dryRun vizMode : Bool) : ∀ (comps : List Component)
    (procs s2 : List Proc) (out : List (Component × List Instr)),
    comps.Nodup →
    compileGo dryRun vizMode comps procs = .ok out s2 →
    (∀ p ∈ s2, p.stop ≠ none) →
    compileGo dryRun vizMode comps s2 = .ok out s2 := by
  intro comps
  induction comps with
  | nil =>
      intro procs s2 out _ hgo _
      simp only [compileGo] at hgo ⊢
      cases hgo
      rfl
  | cons c cs ih =>
      intro procs s2 out hnd hgo H
      cases hcc : compileComponent dryRun vizMode c procs with
      | err e sx =>
          simp only [compileGo, hcc] at hgo
          cases hgo
      | ok r sx =>
          cases r with
          | none =>
              obtain ⟨hsx, hIdxEmpty⟩ :=
                compileComponent_ok_none_inv dryRun vizMode c procs sx hcc
              subst hsx
              simp only [compileGo, hcc] at hgo
              have hfr : framed sx s2 := by
                have hh := compileGo_framed dryRun vizMode cs sx
                rw [hgo] at hh
                simpa [Res.state] using hh
              obtain ⟨hlen, hsk⟩ := framed_skel sx s2 hfr
              have hsortP : sortIdxs c sx = .ok [] := by
                have hh := sortIdxs_of_small c sx (by rw [hIdxEmpty]; simp)
                rw [hIdxEmpty] at hh
                exact hh
              have hcc2 : compileComponent dryRun vizMode c s2 = .ok none s2 :=
                compileComponent_mk_none dryRun vizMode c s2 (by
                  rw [sortIdxs_congr c sx s2 hlen (fun i => (hsk i).2.1) (fun i => (hsk i).1),
                    hsortP])
              simp only [compileGo, hcc2]
              exact ih sx s2 out (List.nodup_cons.mp hnd).2 hgo H
          | some instrs =>
              obtain ⟨idxs, hsort, hne, hval, hinf, hemit⟩ :=
                compileComponent_ok_some_full dryRun vizMode c procs sx instrs hcc
              simp only [compileGo, hcc] at hgo
              cases hgo2 : compileGo dryRun vizMode cs sx with
              | err e2 s3 =>
                  rw [hgo2] at hgo
                  cases hgo
              | ok out2 s3 =>
                  rw [hgo2] at hgo
                  cases hgo
                  have hfr1 : framed procs sx := by
                    have hh := compileComponent_framed dryRun vizMode c procs
                    rw [hcc] at hh
                    simpa [Res.state] using hh
                  have hfr2 : framed sx s2 := by
                    have hh := compileGo_framed dryRun vizMode cs sx
                    rw [hgo2] at hh
                    simpa [Res.state] using hh
                  have hfr : framed procs s2 := framed_trans hfr1 hfr2
                  obtain ⟨hlen, hsk⟩ := framed_skel procs s2 hfr
                  have hsort2 : sortIdxs c s2 = .ok idxs := by
                    rw [sortIdxs_congr c procs s2 hlen (fun i => (hsk i).2.1)
                      (fun i => (hsk i).1), hsort]
                  have hmemIdx := fun i hi => mem_of_sortIdxs c procs idxs hsort i hi
                  have hstops2 : ∀ i ∈ idxs, stopAt s2 i ≠ none := by
                    intro i hi
                    obtain ⟨hlt, _⟩ := hmemIdx i hi
                    have hlt2 : i < s2.length := by rw [hlen]; exact hlt
                    cases hg : s2.get? i with
                    | none =>
                        rw [List.get?_eq_none] at hg
                        omega
                    | some p =>
                        simp only [stopAt, hg]
                        exact H p (List.get?_mem hg)
                  have hinf2 : inferLoop s2 idxs = .ok () s2 :=
                    inferLoop_noop idxs procs s2 sx hinf (fun i _ => (hsk i).1) hstops2
                  have hgets : ∀ i ∈ idxs, s2.get? i = sx.get? i := by
                    intro i hi
                    apply compileGo_untouched dryRun vizMode cs sx out2 s2 hgo2
                    intro d hd
                    have hcx : componentAt sx i = some c := by
                      rw [(hfr1.2 i).2.1]
                      exact (hmemIdx i hi).2
                    rw [hcx]
                    intro hcd
                    have hcd2 : c = d := by injection hcd
                    exact (List.nodup_cons.mp hnd).1 (hcd2 ▸ hd)
                  have hemit2 : emitLoop c vizMode s2 idxs = .ok instrs := by
                    rw [emitLoop_congr c vizMode idxs sx s2 hgets]
                    exact hemit
                  have hcount2 : ¬ 1 < countWhole s2 idxs := by
                    rw [countWhole_zero s2 idxs hstops2]
                    omega
                  have hcc2 : compileComponent dryRun vizMode c s2 = .ok (some instrs) s2 :=
                    compileComponent_mk dryRun vizMode c s2 s2 idxs instrs hsort2 hne
                      hval hcount2 hinf2 hemit2
                  simp only [compileGo, hcc2]
                  rw [ih sx s2 out2 (List.nodup_cons.mp hnd).2 hgo2 H]

/-- C2 amended: compilation is a pure function of the record collection and
device order, and re-running compile after a successful run that left every
record's stop defined returns the identical output mapping and leaves the
collection untouched; advisories aside, only a record whose stop is still
None after the first run can change the result of a second run. -/
theorem C2_theorem : ∀ (dryRun vizMode : Bool) (comps : List Component)
    (procs s2 : List Proc) (out : List (Component × List Instr)),
    compile dryRun vizMode comps procs = .ok out s2 →
    (∀ p ∈ s2, p.stop ≠ none) →
    compile dryRun vizMode comps s2 = .ok out s2 := by
  intro dryRun vizMode comps procs s2 out h H
  unfold compile at h ⊢
  by_cases hnd : ((comps.map Component.name).Nodup)
  · rw [if_pos hnd] at h ⊢
    exact compileGo_idem dryRun vizMode comps procs s2 out hnd.of_map h H
  · rw [if_neg hnd] at h
    cases h

/-- C2 witness: re-compiling device A's two closed records returns the same
timeline with the collection unchanged. -/
theorem C2_witness :
    (∀ p ∈ procsUnsorted, p.stop ≠ none) ∧
    compile true false [devA] procsUnsorted =
      .ok [(devA,
        [Instr.exec (some 0) [("x", Val.vInt 1)],
         Instr.exec (some 5) devA.baseState,
         Instr.exec (some 10) [("x", Val.vInt 2)],
         Instr.exec (some 20) devA.baseState])] procsUnsorted :=
  ⟨by decide,
   C2_theorem true false [devA] procsUnsorted procsUnsorted
     [(devA,
       [Instr.exec (some 0) [("x", Val.vInt 1)],
        Instr.exec (some 5) devA.baseState,
        Instr.exec (some 10) [("x", Val.vInt 2)],
        Instr.exec (some 20) devA.baseState])] (by decide) (by decide)⟩
